import Mathlib


/-!
# EA Grants Database — verification of the dedup / residual / ordering pipeline

Shallow embedding of the scraping pipeline's core transforms:

* `deduplicateGrants` (scripts/dedup.ts): Layer 1 removes grants flagged
  `exclude_from_total`; Layer 2 groups by normalized recipient and fuzzy-merges
  cross-grantmaker records with similar amounts and close dates, accumulating
  `funders` on the surviving record.
* `computeResiduals` (scripts/residuals.ts): for each published (grantmaker, year)
  total, emits a synthetic residual grant when the unexplained gap is material.
* the final sort by date descending (scripts/scrape-all.ts).

Numbers are embedded as `ℚ` (JS numbers; all inputs of interest are exact),
dates as their ISO strings plus an explicit model of `new Date(s).getTime()`
for well-formed `YYYY-MM-DD` strings (other strings parse to `none`, matching
JS `NaN` semantics in comparisons).  JS `Map` / object iteration is modelled by
insertion-ordered association lists.  The record mutation `keeper.funders = …`
in dedup.ts (which aliases an already-pushed output element) is modelled by
updating the group's record in place and emitting output records only after the
whole group is processed, which observes exactly the final state.
-/

namespace EAGrants

/-- The `Grant` record (types/grants.ts), restricted to the fields the pipeline
core reads or writes: `id`, `recipient`, `amount`, `date`, `grantmaker`,
`exclude_from_total`, `is_residual`, `funders`.  Optional booleans are `Bool`
(absent = `false`); `funders?: string[]` is `Option (List String)` — note that
JS distinguishes an absent `funders` (falsy) from an empty array (truthy). -/
structure Grant where
  id : String
  recipient : String
  amount : ℚ
  date : String
  grantmaker : String
  exclude_from_total : Bool := false
  is_residual : Bool := false
  funders : Option (List String) := none
deriving DecidableEq, Repr, Inhabited

/-- JS `\s` for the ASCII range (the data is ASCII). -/
def isJsSpace (c : Char) : Bool :=
  c == ' ' || c == '\t' || c == '\n' || c == '\r' || c == '\x0b' || c == '\x0c'

/-- The stopword alternation of `normalizeRecipient`'s second regex. -/
def stopWords : List String :=
  ["inc", "llc", "ltd", "corporation", "corp", "foundation", "fund", "the", "of",
   "for", "and", "university", "institute", "project"]

/-- Characters kept by `.replace(/[^a-z0-9\s]/g, '')` (after lowercasing). -/
def keepChar (c : Char) : Bool :=
  ('a' ≤ c && c ≤ 'z') || ('0' ≤ c && c ≤ '9') || isJsSpace c

/-- ASCII `toLowerCase`, per character (all inputs of interest are ASCII). -/
def charToLower (c : Char) : Char :=
  if 'A' ≤ c ∧ c ≤ 'Z' then Char.ofNat (c.toNat + 32) else c

def lowerData (cs : List Char) : List Char := cs.map charToLower

/-- Split a character list into maximal whitespace-free tokens (second argument
is the reversed current token). -/
def tokensAux : List Char → List Char → List (List Char)
  | [], cur => if cur.isEmpty then [] else [cur.reverse]
  | c :: rest, cur =>
    if isJsSpace c then
      if cur.isEmpty then tokensAux rest []
      else cur.reverse :: tokensAux rest []
    else tokensAux rest (c :: cur)

def tokens (cs : List Char) : List (List Char) := tokensAux cs []

/-- Rejoin tokens with single spaces (the `\s+ → ' '` collapse plus `trim`). -/
def joinTokens : List (List Char) → List Char
  | [] => []
  | t :: rest => if rest.isEmpty then t else t ++ ' ' :: joinTokens rest

/-- `normalizeRecipient` (dedup.ts): lowercase, strip `[^a-z0-9\s]`, delete
whole-word stopwords, collapse whitespace, trim.  On a string over `[a-z0-9\s]`
the regex `\b(w1|…|wn)\b` removes exactly the whitespace-delimited tokens equal
to some `wi` (word characters are `[a-z0-9_]`, and `_` was already stripped),
so deleting stopwords then collapsing/trimming whitespace equals: tokenize on
whitespace, drop stopword tokens, rejoin with single spaces. -/
def normalizeRecipient (name : String) : String :=
  let cleaned := (lowerData name.data).filter keepChar
  let toks := (tokens cleaned).filter (fun t => !stopWords.contains (String.mk t))
  String.mk (joinTokens toks)

/-- `amountsMatch` (dedup.ts): guard `a === 0 || b === 0`, then
`Math.max(a,b)/Math.min(a,b) <= 1.10`. -/
def amountsMatch (a b : ℚ) : Bool :=
  if a = 0 ∨ b = 0 then false
  else decide (max a b / min a b ≤ 11 / 10)

/-- Day count from 1970-01-01 for a civil date (proleptic Gregorian), the
standard era-based algorithm; linear in the day argument, so a day beyond the
month's length rolls over into the following month exactly as ECMAScript
`MakeDay` does. -/
def daysFromCivil (y : Int) (m d : Nat) : Int :=
  let yAdj : Int := if m ≤ 2 then y - 1 else y
  let era : Int := Int.fdiv yAdj 400
  let yoe : Int := yAdj - era * 400
  let mp : Int := if m ≤ 2 then (m : Int) + 9 else (m : Int) - 3
  let doy : Int := Int.fdiv (153 * mp + 2) 5 + (d : Int) - 1
  let doe : Int := yoe * 365 + Int.fdiv yoe 4 - Int.fdiv yoe 100 + doy
  era * 146097 + doe - 719468

def digitVal (c : Char) : Nat := c.toNat - 48

/-- `new Date(s).getTime()` for strict ISO `YYYY-MM-DD` strings (UTC midnight,
milliseconds since epoch); anything else yields `none` (JS: `NaN`).  ECMAScript
accepts month `01`–`12` and day `01`–`31` and rolls over day overflow. -/
def parseDateMs (s : String) : Option Int :=
  match s.data with
  | [y1, y2, y3, y4, s1, m1, m2, s2, d1, d2] =>
    if ([y1, y2, y3, y4, m1, m2, d1, d2].all Char.isDigit) && s1 == '-' && s2 == '-' then
      let y : Int :=
        ((digitVal y1 * 1000 + digitVal y2 * 100 + digitVal y3 * 10 + digitVal y4 : Nat) : Int)
      let m := digitVal m1 * 10 + digitVal m2
      let d := digitVal d1 * 10 + digitVal d2
      if 1 ≤ m && m ≤ 12 && 1 ≤ d && d ≤ 31 then
        some (daysFromCivil y m d * 86400000)
      else none
    else none
  | _ => none

/-- `datesClose` (dedup.ts): `Math.abs(da - db) < 90*24*60*60*1000`.  An
invalid date gives `NaN`, and every comparison with `NaN` is false. -/
def datesClose (a b : String) : Bool :=
  match parseDateMs a, parseDateMs b with
  | some ta, some tb => decide ((ta - tb).natAbs < 90 * 86400000)
  | _, _ => false

/-- `[...new Set(l)]`: keep the first occurrence of each element. -/
def dedupFirstAux (past : List String) : List String → List String
  | [] => []
  | x :: xs =>
    if past.contains x then dedupFirstAux past xs
    else x :: dedupFirstAux (x :: past) xs

def dedupFirst (l : List String) : List String := dedupFirstAux [] l

/-- The merge step of dedup.ts Layer 2:
`if (!keeper.funders) keeper.funders = [keeper.grantmaker];`
`keeper.funders.push(dup.grantmaker); keeper.funders = [...new Set(keeper.funders)]`.
Note `!keeper.funders` is true only for an *absent* array — an empty array is
truthy in JS and is not reseeded. -/
def mergeFunders (keeper dup : Grant) : Grant :=
  let base : List String :=
    match keeper.funders with
    | none => [keeper.grantmaker]
    | some fs => fs
  { keeper with funders := some (dedupFirst (base ++ [dup.grantmaker])) }

/-- Proof-level record of one executed Layer-2 merge: the keeper as it was
when matched, the keeper after its `funders` update, and the removed record. -/
structure MergeEvent where
  keeperBefore : Grant
  keeperAfter : Grant
  dup : Grant
deriving DecidableEq, Repr

/-- Mutable state threaded through Layer 2: the `seen` id set, plus the merge
log (proof-level) and the `fuzzyMerged` counter. -/
structure GState where
  seen : List String
  merges : List MergeEvent
  fuzzyMerged : Nat
deriving Repr

def initState : GState := { seen := [], merges := [], fuzzyMerged := 0 }

/-- The inner `for (let j = 0; j < i; j++)` scan: walk the already-processed
records of the group in order; at the first candidate that is not in `seen`,
has a different grantmaker, and matches on amount and date, update it in place
with `mergeFunders` and report (updated records, keeper before, keeper after). -/
def tryMerge (g : Grant) (seen : List String) :
    List (Grant × Bool) → Option (List (Grant × Bool) × Grant × Grant)
  | [] => none
  | (cand, b) :: rest =>
    if !seen.contains cand.id && !(cand.grantmaker == g.grantmaker) &&
       amountsMatch g.amount cand.amount && datesClose g.date cand.date then
      let after := mergeFunders cand g
      some ((after, b) :: rest, cand, after)
    else
      match tryMerge g seen rest with
      | some (rest', kb, ka) => some ((cand, b) :: rest', kb, ka)
      | none => none

/-- The outer `for (let i = 0; i < group.length; i++)` loop over one recipient
group.  `pre` holds the records already iterated, each tagged with whether it
will be pushed to the output (the code pushes non-duplicates immediately, but
later merges mutate pushed keepers through aliasing, so the observable output
is the final state of the kept records — which is what this returns). -/
def goGroup : List Grant → List (Grant × Bool) → GState → List (Grant × Bool) × GState
  | [], pre, st => (pre, st)
  | g :: rest, pre, st =>
    if st.seen.contains g.id then
      goGroup rest (pre ++ [(g, false)]) st
    else
      match tryMerge g st.seen pre with
      | some (pre', kb, ka) =>
        goGroup rest (pre' ++ [(g, false)])
          { seen := g.id :: st.seen
            merges := st.merges ++ [⟨kb, ka, g⟩]
            fuzzyMerged := st.fuzzyMerged + 1 }
      | none => goGroup rest (pre ++ [(g, true)]) st

/-- One recipient group: groups of size ≤ 1 are pushed unchanged (the code's
early `continue`), larger groups run the pairwise scan. -/
def procGroup (group : List Grant) (st : GState) : List Grant × GState :=
  if group.length ≤ 1 then (group, st)
  else
    let r := goGroup group [] st
    ((r.1.filter Prod.snd).map Prod.fst, r.2)

/-- Iterate the recipient groups in map-insertion order, appending each group's
surviving records to the output. -/
def procAll : List (List Grant) → GState → List Grant → List Grant × GState
  | [], st, out => (out, st)
  | grp :: rest, st, out =>
    let r := procGroup grp st
    procAll rest r.2 (out ++ r.1)

/-- `byRecipient.get(key)!.push(g)` on a JS `Map`: append to the group of the
first (unique) matching key, or append a new key at the end. -/
def addToGroups : List (String × List Grant) → String → Grant → List (String × List Grant)
  | [], key, g => [(key, [g])]
  | (k, grp) :: rest, key, g =>
    if k = key then (k, grp ++ [g]) :: rest
    else (k, grp) :: addToGroups rest key g

/-- Build the `byRecipient` map of dedup.ts in insertion order. -/
def groupByRecipient (gs : List Grant) : List (String × List Grant) :=
  gs.foldl (fun acc g => addToGroups acc (normalizeRecipient g.recipient) g) []

structure DedupStats where
  totalBefore : Nat
  excluded : Nat
  fuzzyMerged : Nat
  totalAfter : Nat
deriving DecidableEq, Repr

/-- Return value of `deduplicateGrants`, extended with two proof-level logs:
the merge events of Layer 2 and the records dropped by Layer 1.  Neither log
influences `grants` or `stats`. -/
structure DedupResult where
  grants : List Grant
  stats : DedupStats
  merges : List MergeEvent
  excludedGrants : List Grant
deriving Repr

/-- `deduplicateGrants` (dedup.ts). -/
def deduplicateGrants (gs : List Grant) : DedupResult :=
  let layer1 := gs.filter (fun g => !g.exclude_from_total)
  let excluded := gs.length - layer1.length
  let groups := groupByRecipient layer1
  let r := procAll (groups.map Prod.snd) initState []
  { grants := r.1
    stats :=
      { totalBefore := gs.length
        excluded := excluded
        fuzzyMerged := r.2.fuzzyMerged
        totalAfter := r.1.length }
    merges := r.2.merges
    excludedGrants := gs.filter (fun g => g.exclude_from_total) }

/-! ## Residual computation (residuals.ts) -/

/-- A published-totals table (`annual-totals.json`): grantmaker key ↦ year key
↦ published annual total.  JSON objects have pairwise-distinct keys; iteration
order is immaterial to everything proved below. -/
abbrev TotalsTable := List (String × List (String × ℚ))

/-- `key.startsWith('_')` — the comment-entry guard. -/
def startsWithUnderscore (s : String) : Bool :=
  match s.data with
  | [] => false
  | c :: _ => c == '_'

/-- `g.date.slice(0, 4)` — the year of a grant's ISO date string. -/
def yearOf (g : Grant) : String := String.mk (g.date.data.take 4)

/-- The `knownTotals` nested map of residuals.ts as a total function with
default 0 (a JS `Map` lookup with `|| 0`): iterate the grants, skipping
`is_residual` and `exclude_from_total` records, accumulating each amount into
its (grantmaker, year) cell. -/
def knownTotalsFold : List Grant → String → String → ℚ
  | [], _, _ => 0
  | g :: rest, gm, y =>
    if g.is_residual || g.exclude_from_total then knownTotalsFold rest gm y
    else if gm = g.grantmaker ∧ y = yearOf g then knownTotalsFold rest gm y + g.amount
    else knownTotalsFold rest gm y

/-- `grantmakerKey.toLowerCase().replace(/\s+/g, '-')`: each maximal
whitespace run becomes a single dash (the flag records whether the previous
character was whitespace). -/
def collapseWsAux : Bool → List Char → List Char
  | _, [] => []
  | prevWs, c :: rest =>
    if isJsSpace c then
      if prevWs then collapseWsAux true rest
      else '-' :: collapseWsAux true rest
    else c :: collapseWsAux false rest

def residualId (gm year : String) : String :=
  "residual-" ++ String.mk (collapseWsAux false (lowerData gm.data)) ++ "-" ++ year

/-- The synthetic residual grant built by residuals.ts (the fields the claims
read; prose fields such as `title`, `description`, `residual_note` are plain
string formatting and are not referenced by any claim). -/
def mkResidual (gm year : String) (amount : ℚ) : Grant :=
  { id := residualId gm year
    recipient := "Various recipients"
    amount := amount
    date := year ++ "-07-01"
    grantmaker := gm
    exclude_from_total := false
    is_residual := true
    funders := none }

/-- The inner year loop of `computeResiduals`: skip comment keys, compute
`residual = published − known`, and push a residual grant exactly when
`residual > 100000 && residual / published > 0.05` (pushes render as cons, so
emission order follows iteration order). -/
def residualsForYears (known : String → String → ℚ) (gm : String) :
    List (String × ℚ) → List Grant
  | [] => []
  | yp :: rest =>
    if startsWithUnderscore yp.1 then residualsForYears known gm rest
    else
      let knownTotal := known gm yp.1
      let residualAmount := yp.2 - knownTotal
      if residualAmount > 100000 ∧ residualAmount / yp.2 > 5 / 100 then
        mkResidual gm yp.1 residualAmount :: residualsForYears known gm rest
      else residualsForYears known gm rest

/-- The outer grantmaker loop of `computeResiduals`: skip comment keys,
concatenate each entry's emitted year residuals. -/
def residualsTables (known : String → String → ℚ) : TotalsTable → List Grant
  | [] => []
  | entry :: rest =>
    if startsWithUnderscore entry.1 then residualsTables known rest
    else residualsForYears known entry.1 entry.2 ++ residualsTables known rest

/-- `computeResiduals` (residuals.ts), returning the emitted residual list
(`stats.generated` is its length; `stats.byGrantmaker` is reporting only and
not referenced by any claim). -/
def computeResiduals (gs : List Grant) (table : TotalsTable) : List Grant :=
  residualsTables (knownTotalsFold gs) table

/-! ## Final ordering (scrape-all.ts) -/

/-- Lexicographic strict order on character lists — the comparison underlying
`localeCompare` on the ASCII date strings in play (code-unit order). -/
def dataLt : List Char → List Char → Bool
  | [], [] => false
  | [], _ :: _ => true
  | _ :: _, [] => false
  | a :: as, b :: bs => if a < b then true else if b < a then false else dataLt as bs

/-- String comparison used by the final sort's comparator. -/
def strLt (a b : String) : Bool := dataLt a.data b.data

/-- One insertion step of a stable descending sort on the date string: the new
record goes after every already-placed record whose date is ≥ its own.
`finalGrants.sort((a, b) => b.date.localeCompare(a.date))` is a stable sort
(ECMAScript `Array.prototype.sort` is stable) under the lexicographic string
order (on ASCII date strings `localeCompare` agrees with code-unit order). -/
def insertByDateDesc (g : Grant) : List Grant → List Grant
  | [] => [g]
  | h :: t => if strLt h.date g.date then g :: h :: t else h :: insertByDateDesc g t

/-- Stable sort by date descending, inserting records left to right. -/
def sortByDateDesc (gs : List Grant) : List Grant :=
  gs.foldl (fun acc g => insertByDateDesc g acc) []

/-- Phases 2–4 of scrape-all.ts `main`: dedup, residuals over the deduplicated
grants, concatenate, sort by date descending.  This is the sequence written to
`all-grants.json` / `scraped-grants.json`. -/
def pipelineFinal (gs : List Grant) (table : TotalsTable) : List Grant :=
  let d := deduplicateGrants gs
  sortByDateDesc (d.grants ++ computeResiduals d.grants table)

/-! ## Helper definitions for the statements and proofs -/

/-- Total dollar amount of a list of grants. -/
def dollarSum (gs : List Grant) : ℚ := (gs.map Grant.amount).sum

/-- The records removed by the Layer-2 merges of a merge log. -/
def dupsOf (ms : List MergeEvent) : List Grant := ms.map MergeEvent.dup

/-- Number of records of a processed group slice that will be emitted. -/
def keptCount (pre : List (Grant × Bool)) : Nat := (pre.filter Prod.snd).length

/-- Dollar amount of the records of a processed group slice that will be
emitted. -/
def keptSum (pre : List (Grant × Bool)) : ℚ :=
  ((pre.filter Prod.snd).map (fun p => p.1.amount)).sum

/-- The descending date ordering used by the final sort. -/
def dateGE (a b : Grant) : Prop := b.date ≤ a.date

/-- Every executed merge satisfies the guard conditions of the inner scan and
performs the `mergeFunders` update. -/
def MergeOK (e : MergeEvent) : Prop :=
  e.keeperAfter = mergeFunders e.keeperBefore e.dup ∧
  e.keeperBefore.grantmaker ≠ e.dup.grantmaker ∧
  amountsMatch e.dup.amount e.keeperBefore.amount = true ∧
  datesClose e.dup.date e.keeperBefore.date = true

/-! ## Concrete instances used by counterexamples and witnesses -/

/-- A grant flagged `exclude_from_total` (C1 counterexample). -/
def c1ex : Grant where
  id := "x1"
  recipient := "Some Org"
  amount := 5000
  date := "2022-05-01"
  grantmaker := "A"
  exclude_from_total := true

/-- An ordinary unflagged grant (C1 witness). -/
def c1inc : Grant where
  id := "x2"
  recipient := "Helen Keller Intl"
  amount := 7000
  date := "2022-03-04"
  grantmaker := "A"

/-- C3 counterexample pair: identical amounts, dates exactly 90 days apart. -/
def c3a : Grant where
  id := "p1"
  recipient := "Acme Widgets"
  amount := 100
  date := "2023-01-01"
  grantmaker := "A"

def c3b : Grant where
  id := "p2"
  recipient := "Acme Widgets"
  amount := 100
  date := "2023-04-01"
  grantmaker := "B"

/-- C3 witness pair: amounts within 10 %, dates 5 days apart. -/
def c3w1 : Grant where
  id := "q1"
  recipient := "Acme Widgets"
  amount := 100
  date := "2023-01-01"
  grantmaker := "A"

def c3w2 : Grant where
  id := "q2"
  recipient := "Acme Widgets"
  amount := 105
  date := "2023-01-06"
  grantmaker := "B"

/-- C4 counterexample: a keeper whose `funders` is the (truthy) empty array. -/
def c4k : Grant where
  id := "k1"
  recipient := "Acme Widgets"
  amount := 100
  date := "2023-01-01"
  grantmaker := "A"
  funders := some []

def c4d : Grant where
  id := "k2"
  recipient := "Acme Widgets"
  amount := 100
  date := "2023-01-02"
  grantmaker := "B"

/-- C4 witness: a keeper with absent `funders`. -/
def c4wk : Grant where
  id := "m1"
  recipient := "Acme Widgets"
  amount := 100
  date := "2023-01-01"
  grantmaker := "A"

def c4wd : Grant where
  id := "m2"
  recipient := "Acme Widgets"
  amount := 100
  date := "2023-01-02"
  grantmaker := "B"

/-- The merge event produced by `deduplicateGrants [c4wk, c4wd]`. -/
def c4we : MergeEvent where
  keeperBefore := c4wk
  keeperAfter := { c4wk with funders := some ["A", "B"] }
  dup := c4wd

/-- C5 counterexample: three same-group grants where the second and third
share an id, so the third is skipped without being counted anywhere. -/
def c5a : Grant where
  id := "r1"
  recipient := "Acme Widgets"
  amount := 100
  date := "2023-01-01"
  grantmaker := "A"

def c5b : Grant where
  id := "same"
  recipient := "Acme Widgets"
  amount := 100
  date := "2023-01-02"
  grantmaker := "B"

def c5c : Grant where
  id := "same"
  recipient := "Acme Widgets"
  amount := 50
  date := "2023-01-03"
  grantmaker := "C"

/-- C5 witness pair (distinct ids). -/
def c5wa : Grant where
  id := "s1"
  recipient := "Acme Widgets"
  amount := 100
  date := "2023-01-01"
  grantmaker := "A"
  exclude_from_total := true

def c5wb : Grant where
  id := "s2"
  recipient := "Acme Widgets"
  amount := 60
  date := "2023-01-02"
  grantmaker := "B"

/-- C6 counterexample pair: negative amounts pass the zero-only guard. -/
def c6a : Grant where
  id := "n1"
  recipient := "Acme Widgets"
  amount := -100
  date := "2023-01-01"
  grantmaker := "A"

def c6b : Grant where
  id := "n2"
  recipient := "Acme Widgets"
  amount := -100
  date := "2023-01-02"
  grantmaker := "B"

/-- C6 witness pair and its merge event. -/
def c6wa : Grant where
  id := "u1"
  recipient := "Acme Widgets"
  amount := 200
  date := "2023-01-01"
  grantmaker := "A"

def c6wb : Grant where
  id := "u2"
  recipient := "Acme Widgets"
  amount := 210
  date := "2023-01-02"
  grantmaker := "B"

def c6we : MergeEvent where
  keeperBefore := c6wa
  keeperAfter := { c6wa with funders := some ["A", "B"] }
  dup := c6wb

/-- C7 witness pair and its merge event. -/
def c7a : Grant where
  id := "v1"
  recipient := "Acme Widgets"
  amount := 300
  date := "2023-01-01"
  grantmaker := "A"

def c7b : Grant where
  id := "v2"
  recipient := "Acme Widgets"
  amount := 300
  date := "2023-01-02"
  grantmaker := "B"

def c7we : MergeEvent where
  keeperBefore := c7a
  keeperAfter := { c7a with funders := some ["A", "B"] }
  dup := c7b

/-- C9 witness pair (distinct ids, one merge). -/
def c9a : Grant where
  id := "w1"
  recipient := "Acme Widgets"
  amount := 400
  date := "2023-01-01"
  grantmaker := "A"

def c9b : Grant where
  id := "w2"
  recipient := "Acme Widgets"
  amount := 410
  date := "2023-01-02"
  grantmaker := "B"

/-- C10: two unrelated stopword-only recipient names. -/
def c10a : Grant where
  id := "z1"
  recipient := "The Foundation Inc"
  amount := 100
  date := "2023-01-01"
  grantmaker := "A"

def c10b : Grant where
  id := "z2"
  recipient := "University Institute Fund"
  amount := 105
  date := "2023-01-10"
  grantmaker := "B"

/-! ## Basic lemmas -/

theorem contains_iff_mem (l : List String) (x : String) :
    l.contains x = true ↔ x ∈ l := by
  simp [List.contains, List.elem_iff]

theorem mem_dedupFirstAux (x : String) :
    ∀ (l past : List String), x ∈ dedupFirstAux past l ↔ x ∈ l ∧ x ∉ past := by
  intro l
  induction l with
  | nil => intro past; simp [dedupFirstAux]
  | cons y ys ih =>
    intro past
    by_cases hy : y ∈ past
    · rw [dedupFirstAux, if_pos ((contains_iff_mem _ _).mpr hy), ih past]
      constructor
      · rintro ⟨hxl, hxp⟩
        exact ⟨List.mem_cons_of_mem _ hxl, hxp⟩
      · rintro ⟨hor, hxp⟩
        rcases List.mem_cons.mp hor with h | h
        · exact absurd (h ▸ hy) hxp
        · exact ⟨h, hxp⟩
    · rw [dedupFirstAux, if_neg (by rw [contains_iff_mem]; exact hy)]
      simp only [List.mem_cons, ih (y :: past)]
      constructor
      · rintro (rfl | ⟨hys, hnp⟩)
        · exact ⟨Or.inl rfl, hy⟩
        · exact ⟨Or.inr hys, fun hp => hnp (Or.inr hp)⟩
      · rintro ⟨rfl | hys, hnp⟩
        · exact Or.inl rfl
        · by_cases hxy : x = y
          · exact Or.inl hxy
          · exact Or.inr ⟨hys, fun hp => hp.elim hxy hnp⟩

theorem nodup_dedupFirstAux :
    ∀ (l past : List String), (dedupFirstAux past l).Nodup := by
  intro l
  induction l with
  | nil => intro past; simp [dedupFirstAux]
  | cons y ys ih =>
    intro past
    rw [dedupFirstAux]
    split
    · exact ih past
    · refine List.nodup_cons.mpr ⟨fun hmem => ?_, ih (y :: past)⟩
      exact ((mem_dedupFirstAux y ys (y :: past)).mp hmem).2 (List.mem_cons_self _ _)

theorem mergeFunders_amount (k d : Grant) : (mergeFunders k d).amount = k.amount := rfl

theorem mergeFunders_id (k d : Grant) : (mergeFunders k d).id = k.id := rfl

theorem mergeFunders_grantmaker (k d : Grant) :
    (mergeFunders k d).grantmaker = k.grantmaker := rfl

theorem mergeFunders_exclude (k d : Grant) :
    (mergeFunders k d).exclude_from_total = k.exclude_from_total := rfl

/-- Characterization of the merged `funders` set. -/
theorem mergeFunders_funders (k d : Grant) :
    ∃ fs, (mergeFunders k d).funders = some fs ∧ fs.Nodup ∧ d.grantmaker ∈ fs ∧
      ∀ y, y ∈ fs ↔
        (y ∈ (match k.funders with | none => [k.grantmaker] | some l => l) ∨
         y = d.grantmaker) := by
  refine ⟨_, rfl, nodup_dedupFirstAux _ _, ?_, ?_⟩
  · rw [dedupFirst, mem_dedupFirstAux]
    simp
  · intro y
    rw [dedupFirst, mem_dedupFirstAux]
    simp

theorem keptCount_append (a c : List (Grant × Bool)) :
    keptCount (a ++ c) = keptCount a + keptCount c := by
  simp [keptCount, List.filter_append]

theorem keptSum_append (a c : List (Grant × Bool)) :
    keptSum (a ++ c) = keptSum a + keptSum c := by
  simp [keptSum, List.filter_append]

/-- Structure of a successful inner-scan step: the first matching candidate is
replaced in place by its `mergeFunders` update, and the guard conditions held
for it. -/
theorem tryMerge_eq_some :
    ∀ (pre : List (Grant × Bool)) {g : Grant} {seen : List String}
      {pre' : List (Grant × Bool)} {kb ka : Grant},
      tryMerge g seen pre = some (pre', kb, ka) →
      ∃ l r b, pre = l ++ (kb, b) :: r ∧ pre' = l ++ (ka, b) :: r ∧
        ka = mergeFunders kb g ∧ seen.contains kb.id = false ∧
        ¬ kb.grantmaker = g.grantmaker ∧ amountsMatch g.amount kb.amount = true ∧
        datesClose g.date kb.date = true := by
  intro pre
  induction pre with
  | nil => intro g seen pre' kb ka h; exact absurd h (by simp [tryMerge])
  | cons p rest ih =>
    intro g seen pre' kb ka h
    obtain ⟨cand, b⟩ := p
    by_cases hcond : (!seen.contains cand.id && !(cand.grantmaker == g.grantmaker) &&
        amountsMatch g.amount cand.amount && datesClose g.date cand.date) = true
    · rw [tryMerge, if_pos hcond] at h
      have h' := Option.some.inj h
      rw [Prod.mk.injEq, Prod.mk.injEq] at h'
      obtain ⟨hp, hkb, hka⟩ := h'
      subst hp; subst hkb; subst hka
      simp only [Bool.and_eq_true, Bool.not_eq_true'] at hcond
      refine ⟨[], rest, b, rfl, rfl, rfl, ?_, ?_, ?_, ?_⟩
      · exact hcond.1.1.1
      · exact beq_eq_false_iff_ne.mp hcond.1.1.2
      · exact hcond.1.2
      · exact hcond.2
    · rw [tryMerge, if_neg hcond] at h
      cases htm : tryMerge g seen rest with
      | none => rw [htm] at h; exact absurd h (by simp)
      | some q =>
        obtain ⟨rest', kb', ka'⟩ := q
        rw [htm] at h
        have h' := Option.some.inj h
        rw [Prod.mk.injEq, Prod.mk.injEq] at h'
        obtain ⟨hp, hkb, hka⟩ := h'
        subst hp; subst hkb; subst hka
        obtain ⟨l, r, b', hpre, hpre', hka, hseen, hgm, ham, hd⟩ := ih htm
        exact ⟨(cand, b) :: l, r, b', by rw [hpre]; rfl, by rw [hpre']; rfl,
          hka, hseen, hgm, ham, hd⟩

theorem dollarSum_nil : dollarSum [] = 0 := rfl

theorem dollarSum_cons (g : Grant) (gs : List Grant) :
    dollarSum (g :: gs) = g.amount + dollarSum gs := by
  simp [dollarSum]

theorem dollarSum_append (a c : List Grant) :
    dollarSum (a ++ c) = dollarSum a + dollarSum c := by
  simp [dollarSum]

theorem dupsOf_append (ms ns : List MergeEvent) :
    dupsOf (ms ++ ns) = dupsOf ms ++ dupsOf ns := by
  simp [dupsOf]

theorem keptCount_mid (l r : List (Grant × Bool)) (x y : Grant) (b : Bool) :
    keptCount (l ++ (x, b) :: r) = keptCount (l ++ (y, b) :: r) := by
  simp only [keptCount, List.filter_append, List.filter_cons]
  cases b <;> simp

theorem keptSum_mid (l r : List (Grant × Bool)) (x y : Grant) (b : Bool)
    (hxy : x.amount = y.amount) :
    keptSum (l ++ (x, b) :: r) = keptSum (l ++ (y, b) :: r) := by
  simp only [keptSum, List.filter_append, List.filter_cons]
  cases b <;> simp [hxy]

theorem tryMerge_keptCount {pre : List (Grant × Bool)} {g : Grant}
    {seen : List String} {pre' : List (Grant × Bool)} {kb ka : Grant}
    (htm : tryMerge g seen pre = some (pre', kb, ka)) :
    keptCount pre' = keptCount pre := by
  obtain ⟨l, r, b, hpre, hpre', _, _, _, _, _⟩ := tryMerge_eq_some pre htm
  rw [hpre, hpre']
  exact keptCount_mid l r ka kb b

theorem tryMerge_keptSum {pre : List (Grant × Bool)} {g : Grant}
    {seen : List String} {pre' : List (Grant × Bool)} {kb ka : Grant}
    (htm : tryMerge g seen pre = some (pre', kb, ka)) :
    keptSum pre' = keptSum pre := by
  obtain ⟨l, r, b, hpre, hpre', hka, _, _, _, _⟩ := tryMerge_eq_some pre htm
  rw [hpre, hpre']
  exact keptSum_mid l r ka kb b (by rw [hka, mergeFunders_amount])

theorem tryMerge_preserve {pre : List (Grant × Bool)} {g : Grant}
    {seen : List String} {pre' : List (Grant × Bool)} {kb ka : Grant}
    (htm : tryMerge g seen pre = some (pre', kb, ka))
    (h : ∀ p ∈ pre, p.1.exclude_from_total = false) :
    ∀ p ∈ pre', p.1.exclude_from_total = false := by
  obtain ⟨l, r, b, hpre, hpre', hka, _, _, _, _⟩ := tryMerge_eq_some pre htm
  subst hpre hpre'
  intro p hp
  rcases List.mem_append.mp hp with hl | hr
  · exact h p (List.mem_append.mpr (Or.inl hl))
  · rcases List.mem_cons.mp hr with rfl | hr'
    · rw [hka, mergeFunders_exclude]
      exact h (kb, b) (List.mem_append.mpr (Or.inr (List.mem_cons_self _ _)))
    · exact h p (List.mem_append.mpr (Or.inr (List.mem_cons_of_mem _ hr')))

/-- Merge-log invariant of the outer group loop: every event was either
already in the log, or satisfies the scan's guard conditions. -/
theorem goGroup_merges :
    ∀ (rest : List Grant) (pre : List (Grant × Bool)) (st : GState) (e : MergeEvent),
      e ∈ (goGroup rest pre st).2.merges → e ∈ st.merges ∨ MergeOK e := by
  intro rest
  induction rest with
  | nil => intro pre st e he; rw [goGroup] at he; exact Or.inl he
  | cons g rest ih =>
    intro pre st e he
    rw [goGroup] at he
    by_cases hs : st.seen.contains g.id
    · rw [if_pos hs] at he
      exact ih _ _ _ he
    · rw [if_neg hs] at he
      cases htm : tryMerge g st.seen pre with
      | none =>
        rw [htm] at he
        exact ih _ _ _ he
      | some q =>
        obtain ⟨pre', kb, ka⟩ := q
        rw [htm] at he
        rcases ih _ _ _ he with hmem | hok
        · rcases List.mem_append.mp hmem with hold | hnew
          · exact Or.inl hold
          · obtain ⟨_, _, _, _, _, hka, _, hgm, ham, hd⟩ := tryMerge_eq_some pre htm
            rcases List.mem_singleton.mp hnew with rfl
            exact Or.inr ⟨hka, hgm, ham, hd⟩
        · exact Or.inr hok

theorem keptCount_true (g : Grant) : keptCount [(g, true)] = 1 := rfl

theorem keptCount_false (g : Grant) : keptCount [(g, false)] = 0 := rfl

theorem keptSum_true (g : Grant) : keptSum [(g, true)] = g.amount := by
  simp [keptSum]

theorem keptSum_false (g : Grant) : keptSum [(g, false)] = 0 := rfl

/-- Counting / conservation / seen-growth invariant of the outer group loop,
under the assumption that no record is skipped at the top of the loop (which
holds when the ids in play are fresh and pairwise distinct). -/
theorem goGroup_spec :
    ∀ (rest : List Grant) (pre : List (Grant × Bool)) (st : GState),
      (rest.map Grant.id).Nodup →
      (∀ g ∈ rest, g.id ∉ st.seen) →
      keptCount (goGroup rest pre st).1 + (goGroup rest pre st).2.fuzzyMerged
          = keptCount pre + rest.length + st.fuzzyMerged
      ∧ keptSum (goGroup rest pre st).1 + dollarSum (dupsOf (goGroup rest pre st).2.merges)
          = keptSum pre + dollarSum rest + dollarSum (dupsOf st.merges)
      ∧ ∀ x ∈ (goGroup rest pre st).2.seen, x ∈ st.seen ∨ x ∈ rest.map Grant.id := by
  intro rest
  induction rest with
  | nil =>
    intro pre st _ _
    refine ⟨?_, ?_, fun x hx => Or.inl hx⟩
    · show keptCount pre + st.fuzzyMerged = keptCount pre + ([] : List Grant).length + st.fuzzyMerged
      simp
    · show keptSum pre + dollarSum (dupsOf st.merges)
          = keptSum pre + dollarSum [] + dollarSum (dupsOf st.merges)
      rw [dollarSum_nil]
      ring
  | cons g rest ih =>
    intro pre st hnd hfresh
    have hgid : g.id ∉ rest.map Grant.id := by
      have := hnd
      rw [List.map_cons, List.nodup_cons] at this
      exact this.1
    have hnd' : (rest.map Grant.id).Nodup := by
      rw [List.map_cons, List.nodup_cons] at hnd
      exact hnd.2
    have hgseen : g.id ∉ st.seen := hfresh g (List.mem_cons_self _ _)
    rw [goGroup, if_neg (by rw [contains_iff_mem]; exact hgseen)]
    cases htm : tryMerge g st.seen pre with
    | none =>
      have hfresh' : ∀ g' ∈ rest, g'.id ∉ st.seen :=
        fun g' hg' => hfresh g' (List.mem_cons_of_mem _ hg')
      obtain ⟨ha, hb, hc⟩ := ih (pre ++ [(g, true)]) st hnd' hfresh'
      refine ⟨?_, ?_, ?_⟩
      · rw [ha, keptCount_append, keptCount_true]
        simp only [List.length_cons]
        omega
      · rw [hb, keptSum_append, keptSum_true, dollarSum_cons]
        ring
      · intro x hx
        rcases hc x hx with h | h
        · exact Or.inl h
        · exact Or.inr (by rw [List.map_cons]; exact List.mem_cons_of_mem _ h)
    | some q =>
      obtain ⟨pre', kb, ka⟩ := q
      have hfresh' : ∀ g' ∈ rest, g'.id ∉ g.id :: st.seen := by
        intro g' hg'
        simp only [List.mem_cons, not_or]
        exact ⟨fun heq => hgid (heq ▸ List.mem_map_of_mem Grant.id hg'),
               hfresh g' (List.mem_cons_of_mem _ hg')⟩
      obtain ⟨ha, hb, hc⟩ := ih (pre' ++ [(g, false)])
        ⟨g.id :: st.seen, st.merges ++ [⟨kb, ka, g⟩], st.fuzzyMerged + 1⟩ hnd' hfresh'
      refine ⟨?_, ?_, ?_⟩
      · rw [ha]
        dsimp only
        rw [keptCount_append, keptCount_false, tryMerge_keptCount htm]
        simp only [List.length_cons]
        omega
      · rw [hb]
        dsimp only
        rw [keptSum_append, keptSum_false, tryMerge_keptSum htm,
          dupsOf_append, dollarSum_append, dollarSum_cons]
        simp only [dupsOf, List.map_cons, List.map_nil]
        rw [dollarSum_cons, dollarSum_nil]
        ring
      · intro x hx
        rcases hc x hx with h | h
        · rcases List.mem_cons.mp h with rfl | h'
          · exact Or.inr (by rw [List.map_cons]; exact List.mem_cons_self _ _)
          · exact Or.inl h'
        · exact Or.inr (by rw [List.map_cons]; exact List.mem_cons_of_mem _ h)

/-- Records of the group output all come from the group (or its in-place
`mergeFunders` updates), so a property preserved by `mergeFunders` and true of
the inputs is true of the outputs; instantiated for the Layer-1 flag. -/
theorem goGroup_preserve :
    ∀ (rest : List Grant) (pre : List (Grant × Bool)) (st : GState),
      (∀ p ∈ pre, p.1.exclude_from_total = false) →
      (∀ g ∈ rest, g.exclude_from_total = false) →
      ∀ p ∈ (goGroup rest pre st).1, p.1.exclude_from_total = false := by
  intro rest
  induction rest with
  | nil =>
    intro pre st hpre _ p hp
    rw [goGroup] at hp
    exact hpre p hp
  | cons g rest ih =>
    intro pre st hpre hrest p hp
    have hg : g.exclude_from_total = false := hrest g (List.mem_cons_self _ _)
    have hrest' : ∀ g' ∈ rest, g'.exclude_from_total = false :=
      fun g' hg' => hrest g' (List.mem_cons_of_mem _ hg')
    rw [goGroup] at hp
    by_cases hs : st.seen.contains g.id
    · rw [if_pos hs] at hp
      refine ih _ _ ?_ hrest' p hp
      intro q hq
      rcases List.mem_append.mp hq with h | h
      · exact hpre q h
      · rcases List.mem_singleton.mp h with rfl
        exact hg
    · rw [if_neg hs] at hp
      cases htm : tryMerge g st.seen pre with
      | none =>
        rw [htm] at hp
        refine ih _ _ ?_ hrest' p hp
        intro q hq
        rcases List.mem_append.mp hq with h | h
        · exact hpre q h
        · rcases List.mem_singleton.mp h with rfl
          exact hg
      | some q =>
        obtain ⟨pre', kb, ka⟩ := q
        rw [htm] at hp
        refine ih _ _ ?_ hrest' p hp
        intro q' hq'
        rcases List.mem_append.mp hq' with h | h
        · exact tryMerge_preserve htm hpre q' h
        · rcases List.mem_singleton.mp h with rfl
          exact hg

theorem procGroup_merges (grp : List Grant) (st : GState) (e : MergeEvent)
    (he : e ∈ (procGroup grp st).2.merges) : e ∈ st.merges ∨ MergeOK e := by
  rw [procGroup] at he
  split at he
  · exact Or.inl he
  · exact goGroup_merges grp [] st e he

theorem procGroup_spec (grp : List Grant) (st : GState)
    (hnd : (grp.map Grant.id).Nodup) (hfresh : ∀ g ∈ grp, g.id ∉ st.seen) :
    (procGroup grp st).1.length + (procGroup grp st).2.fuzzyMerged
        = grp.length + st.fuzzyMerged
    ∧ dollarSum (procGroup grp st).1 + dollarSum (dupsOf (procGroup grp st).2.merges)
        = dollarSum grp + dollarSum (dupsOf st.merges)
    ∧ ∀ x ∈ (procGroup grp st).2.seen, x ∈ st.seen ∨ x ∈ grp.map Grant.id := by
  rw [procGroup]
  split
  · exact ⟨rfl, by ring, fun x hx => Or.inl hx⟩
  · obtain ⟨ha, hb, hc⟩ := goGroup_spec grp [] st hnd hfresh
    refine ⟨?_, ?_, hc⟩
    · have hlen : (((goGroup grp [] st).1.filter Prod.snd).map Prod.fst).length
          = keptCount (goGroup grp [] st).1 := by
        simp [keptCount]
      rw [hlen]
      calc keptCount (goGroup grp [] st).1 + (goGroup grp [] st).2.fuzzyMerged
          = keptCount ([] : List (Grant × Bool)) + grp.length + st.fuzzyMerged := ha
        _ = grp.length + st.fuzzyMerged := by simp [keptCount]
    · have hsum : dollarSum (((goGroup grp [] st).1.filter Prod.snd).map Prod.fst)
          = keptSum (goGroup grp [] st).1 := by
        simp [dollarSum, keptSum, List.map_map]
        rfl
      rw [hsum]
      calc keptSum (goGroup grp [] st).1 + dollarSum (dupsOf (goGroup grp [] st).2.merges)
          = keptSum ([] : List (Grant × Bool)) + dollarSum grp
              + dollarSum (dupsOf st.merges) := hb
        _ = dollarSum grp + dollarSum (dupsOf st.merges) := by
            rw [show keptSum ([] : List (Grant × Bool)) = 0 from rfl]
            ring

theorem procGroup_preserve (grp : List Grant) (st : GState)
    (h : ∀ g ∈ grp, g.exclude_from_total = false) :
    ∀ g ∈ (procGroup grp st).1, g.exclude_from_total = false := by
  rw [procGroup]
  split
  · exact h
  · intro g hg
    obtain ⟨p, hp, rfl⟩ := List.mem_map.mp hg
    have hp' := (List.mem_filter.mp hp).1
    exact goGroup_preserve grp [] st (by simp) h p hp'

theorem procAll_merges :
    ∀ (groups : List (List Grant)) (st : GState) (out : List Grant) (e : MergeEvent),
      e ∈ (procAll groups st out).2.merges → e ∈ st.merges ∨ MergeOK e := by
  intro groups
  induction groups with
  | nil => intro st out e he; rw [procAll] at he; exact Or.inl he
  | cons grp groups ih =>
    intro st out e he
    rw [procAll] at he
    rcases ih _ _ _ he with hmem | hok
    · exact procGroup_merges grp st e hmem
    · exact Or.inr hok

theorem procAll_spec :
    ∀ (groups : List (List Grant)) (st : GState) (out : List Grant),
      (groups.flatten.map Grant.id).Nodup →
      (∀ g ∈ groups.flatten, g.id ∉ st.seen) →
      (procAll groups st out).1.length + (procAll groups st out).2.fuzzyMerged
          = out.length + groups.flatten.length + st.fuzzyMerged
      ∧ dollarSum (procAll groups st out).1
            + dollarSum (dupsOf (procAll groups st out).2.merges)
          = dollarSum out + dollarSum groups.flatten + dollarSum (dupsOf st.merges)
      ∧ ∀ x ∈ (procAll groups st out).2.seen,
          x ∈ st.seen ∨ x ∈ groups.flatten.map Grant.id := by
  intro groups
  induction groups with
  | nil =>
    intro st out _ _
    refine ⟨?_, ?_, fun x hx => Or.inl hx⟩
    · show out.length + st.fuzzyMerged = out.length + ([] : List (List Grant)).flatten.length + st.fuzzyMerged
      simp
    · show dollarSum out + dollarSum (dupsOf st.merges)
          = dollarSum out + dollarSum ([] : List (List Grant)).flatten + dollarSum (dupsOf st.merges)
      rw [show dollarSum ([] : List (List Grant)).flatten = 0 from rfl]
      ring
  | cons grp groups ih =>
    intro st out hnd hfresh
    rw [List.flatten_cons] at hnd hfresh ⊢
    rw [List.map_append, List.nodup_append] at hnd
    obtain ⟨hnd1, hnd2, hdisj⟩ := hnd
    have hfresh1 : ∀ g ∈ grp, g.id ∉ st.seen :=
      fun g hg => hfresh g (List.mem_append.mpr (Or.inl hg))
    obtain ⟨pa, pb, pc⟩ := procGroup_spec grp st hnd1 hfresh1
    have hfresh2 : ∀ g ∈ groups.flatten, g.id ∉ (procGroup grp st).2.seen := by
      intro g hg hmem
      rcases pc _ hmem with h | h
      · exact hfresh g (List.mem_append.mpr (Or.inr hg)) h
      · exact hdisj h (List.mem_map_of_mem Grant.id hg)
    obtain ⟨ha, hb, hc⟩ := ih (procGroup grp st).2 (out ++ (procGroup grp st).1) hnd2 hfresh2
    rw [procAll]
    refine ⟨?_, ?_, ?_⟩
    · rw [ha, List.length_append, List.length_append]
      omega
    · rw [hb, dollarSum_append, dollarSum_append]
      linarith
    · intro x hx
      rcases hc x hx with h | h
      · rcases pc x h with h' | h'
        · exact Or.inl h'
        · exact Or.inr (by rw [List.map_append]; exact List.mem_append.mpr (Or.inl h'))
      · exact Or.inr (by rw [List.map_append]; exact List.mem_append.mpr (Or.inr h))

theorem procAll_preserve :
    ∀ (groups : List (List Grant)) (st : GState) (out : List Grant),
      (∀ g ∈ out, g.exclude_from_total = false) →
      (∀ g ∈ groups.flatten, g.exclude_from_total = false) →
      ∀ g ∈ (procAll groups st out).1, g.exclude_from_total = false := by
  intro groups
  induction groups with
  | nil =>
    intro st out hout _ g hg
    rw [procAll] at hg
    exact hout g hg
  | cons grp groups ih =>
    intro st out hout hflat g hg
    rw [procAll] at hg
    have hgrp : ∀ g' ∈ grp, g'.exclude_from_total = false := by
      intro g' h
      exact hflat g' (by rw [List.flatten_cons]; exact List.mem_append.mpr (Or.inl h))
    refine ih _ _ ?_ ?_ g hg
    · intro g' h
      rcases List.mem_append.mp h with h' | h'
      · exact hout g' h'
      · exact procGroup_preserve grp st hgrp g' h'
    · intro g' h
      exact hflat g' (by rw [List.flatten_cons]; exact List.mem_append.mpr (Or.inr h))

theorem addToGroups_flatten_perm :
    ∀ (acc : List (String × List Grant)) (k : String) (g : Grant),
      ((addToGroups acc k g).map Prod.snd).flatten.Perm
        ((acc.map Prod.snd).flatten ++ [g]) := by
  intro acc
  induction acc with
  | nil => intro k g; simp [addToGroups]
  | cons p rest ih =>
    intro k g
    obtain ⟨k', grp⟩ := p
    rw [addToGroups]
    split
    · simp only [List.map_cons, List.flatten_cons]
      rw [List.append_assoc, List.append_assoc]
      exact List.Perm.append_left grp List.perm_append_comm
    · simp only [List.map_cons, List.flatten_cons]
      rw [List.append_assoc]
      exact List.Perm.append_left grp (ih k g)

theorem groupFold_flatten_perm :
    ∀ (gs : List Grant) (acc : List (String × List Grant)),
      ((gs.foldl (fun acc g => addToGroups acc (normalizeRecipient g.recipient) g) acc).map
          Prod.snd).flatten.Perm ((acc.map Prod.snd).flatten ++ gs) := by
  intro gs
  induction gs with
  | nil => intro acc; simp
  | cons g gs ih =>
    intro acc
    rw [List.foldl_cons]
    refine (ih (addToGroups acc (normalizeRecipient g.recipient) g)).trans ?_
    have h1 := List.Perm.append_right gs
      (addToGroups_flatten_perm acc (normalizeRecipient g.recipient) g)
    refine h1.trans ?_
    rw [List.append_assoc, List.singleton_append]

theorem groupByRecipient_flatten_perm (gs : List Grant) :
    ((groupByRecipient gs).map Prod.snd).flatten.Perm gs := by
  have := groupFold_flatten_perm gs []
  simpa [groupByRecipient] using this

/-- Every logged merge of `deduplicateGrants` satisfies the scan's guards. -/
theorem deduplicateGrants_merges (gs : List Grant) (e : MergeEvent)
    (he : e ∈ (deduplicateGrants gs).merges) : MergeOK e := by
  have he' : e ∈ (procAll ((groupByRecipient
      (gs.filter (fun g => !g.exclude_from_total))).map Prod.snd) initState []).2.merges := he
  rcases procAll_merges _ _ _ _ he' with h | h
  · exact absurd h (by simp [initState])
  · exact h

/-- With pairwise-distinct ids, every Layer-1 survivor is either emitted or
logged as a merged duplicate, exactly once (count form). -/
theorem deduplicateGrants_count (gs : List Grant) (h : (gs.map Grant.id).Nodup) :
    (deduplicateGrants gs).grants.length + (deduplicateGrants gs).stats.fuzzyMerged
      = (gs.filter (fun g => !g.exclude_from_total)).length := by
  have hsub : ((gs.filter (fun g => !g.exclude_from_total)).map Grant.id).Sublist
      (gs.map Grant.id) := (List.filter_sublist gs).map Grant.id
  have hnd1 : ((gs.filter (fun g => !g.exclude_from_total)).map Grant.id).Nodup :=
    List.Nodup.sublist hsub h
  have hperm := groupByRecipient_flatten_perm (gs.filter (fun g => !g.exclude_from_total))
  have hnd2 : ((((groupByRecipient (gs.filter (fun g => !g.exclude_from_total))).map
      Prod.snd).flatten).map Grant.id).Nodup :=
    ((hperm.map Grant.id).nodup_iff).mpr hnd1
  obtain ⟨ha, _, _⟩ := procAll_spec
    ((groupByRecipient (gs.filter (fun g => !g.exclude_from_total))).map Prod.snd)
    initState [] hnd2 (by intro g _ hg; simp [initState] at hg)
  calc (deduplicateGrants gs).grants.length + (deduplicateGrants gs).stats.fuzzyMerged
      = ([] : List Grant).length + (((groupByRecipient
          (gs.filter (fun g => !g.exclude_from_total))).map Prod.snd).flatten).length
          + initState.fuzzyMerged := ha
    _ = (gs.filter (fun g => !g.exclude_from_total)).length := by
        rw [hperm.length_eq]
        simp [initState]

/-- With pairwise-distinct ids, dollars are conserved through Layer 2:
emitted sum plus merged-duplicate sum equals the Layer-1 survivor sum. -/
theorem deduplicateGrants_sum (gs : List Grant) (h : (gs.map Grant.id).Nodup) :
    dollarSum (deduplicateGrants gs).grants
        + dollarSum (dupsOf (deduplicateGrants gs).merges)
      = dollarSum (gs.filter (fun g => !g.exclude_from_total)) := by
  have hsub : ((gs.filter (fun g => !g.exclude_from_total)).map Grant.id).Sublist
      (gs.map Grant.id) := (List.filter_sublist gs).map Grant.id
  have hnd1 : ((gs.filter (fun g => !g.exclude_from_total)).map Grant.id).Nodup :=
    List.Nodup.sublist hsub h
  have hperm := groupByRecipient_flatten_perm (gs.filter (fun g => !g.exclude_from_total))
  have hnd2 : ((((groupByRecipient (gs.filter (fun g => !g.exclude_from_total))).map
      Prod.snd).flatten).map Grant.id).Nodup :=
    ((hperm.map Grant.id).nodup_iff).mpr hnd1
  obtain ⟨_, hb, _⟩ := procAll_spec
    ((groupByRecipient (gs.filter (fun g => !g.exclude_from_total))).map Prod.snd)
    initState [] hnd2 (by intro g _ hg; simp [initState] at hg)
  calc dollarSum (deduplicateGrants gs).grants
        + dollarSum (dupsOf (deduplicateGrants gs).merges)
      = dollarSum ([] : List Grant) + dollarSum (((groupByRecipient
          (gs.filter (fun g => !g.exclude_from_total))).map Prod.snd).flatten)
          + dollarSum (dupsOf initState.merges) := hb
    _ = dollarSum (gs.filter (fun g => !g.exclude_from_total)) := by
        have h3 : dollarSum (((groupByRecipient
              (gs.filter (fun g => !g.exclude_from_total))).map Prod.snd).flatten)
            = dollarSum (gs.filter (fun g => !g.exclude_from_total)) :=
          (hperm.map Grant.amount).sum_eq
        rw [h3, dollarSum_nil]
        rw [show dollarSum (dupsOf initState.merges) = 0 from rfl]
        ring

/-- Every emitted grant of `deduplicateGrants` survived the Layer-1 filter,
so its `exclude_from_total` flag is false. -/
theorem deduplicateGrants_preserve (gs : List Grant) :
    ∀ g ∈ (deduplicateGrants gs).grants, g.exclude_from_total = false := by
  intro g hg
  have hperm := groupByRecipient_flatten_perm (gs.filter (fun g => !g.exclude_from_total))
  refine procAll_preserve
    ((groupByRecipient (gs.filter (fun g => !g.exclude_from_total))).map Prod.snd)
    initState [] (by simp) ?_ g hg
  intro g' hg'
  have : g' ∈ gs.filter (fun g => !g.exclude_from_total) := hperm.mem_iff.mp hg'
  have := (List.mem_filter.mp this).2
  simpa using this

/-- Partition of the input dollar total into Layer-1 survivors and Layer-1
removals. -/
theorem dollarSum_split_exclude (gs : List Grant) :
    dollarSum (gs.filter (fun g => !g.exclude_from_total))
        + dollarSum (gs.filter (fun g => g.exclude_from_total))
      = dollarSum gs := by
  induction gs with
  | nil => simp [dollarSum]
  | cons g gs ih =>
    rw [List.filter_cons, List.filter_cons]
    cases hflag : g.exclude_from_total <;> simp [dollarSum_cons] <;> linarith

/-! ## Residual-computation lemmas -/

/-- The (grantmaker, year) cell of `knownTotals` is the dollar sum of the
non-residual, non-excluded grants of that grantmaker dated in that year. -/
theorem knownTotalsFold_eq (gs : List Grant) (gm y : String) :
    knownTotalsFold gs gm y = dollarSum (gs.filter (fun g =>
      !g.is_residual && !g.exclude_from_total && (g.grantmaker == gm) && (yearOf g == y))) := by
  induction gs with
  | nil => simp [knownTotalsFold, dollarSum]
  | cons g rest ih =>
    rw [knownTotalsFold, List.filter_cons]
    by_cases hskip : (g.is_residual || g.exclude_from_total) = true
    · rw [if_pos hskip]
      have hfil : (!g.is_residual && !g.exclude_from_total &&
          (g.grantmaker == gm) && (yearOf g == y)) = false := by
        rw [Bool.or_eq_true] at hskip
        rcases hskip with h | h <;> simp [h]
      rw [hfil]
      simpa using ih
    · rw [if_neg hskip]
      have hres : g.is_residual = false := by
        cases h : g.is_residual
        · rfl
        · exact absurd (by rw [Bool.or_eq_true]; exact Or.inl h) hskip
      have hexc : g.exclude_from_total = false := by
        cases h : g.exclude_from_total
        · rfl
        · exact absurd (by rw [Bool.or_eq_true]; exact Or.inr h) hskip
      by_cases hm : gm = g.grantmaker ∧ y = yearOf g
      · rw [if_pos hm]
        have hfil : (!g.is_residual && !g.exclude_from_total &&
            (g.grantmaker == gm) && (yearOf g == y)) = true := by
          simp [hres, hexc, hm.1.symm, hm.2.symm]
        rw [hfil]
        simp only [if_true, dollarSum_cons]
        rw [ih]
        ring
      · rw [if_neg hm]
        have hfil : (!g.is_residual && !g.exclude_from_total &&
            (g.grantmaker == gm) && (yearOf g == y)) = false := by
          by_cases hg : g.grantmaker = gm
          · by_cases hy : yearOf g = y
            · exact absurd ⟨hg.symm, hy.symm⟩ hm
            · simp [hy]
          · simp [hg]
        rw [hfil]
        simpa using ih

theorem mkResidual_grantmaker (gm y : String) (amt : ℚ) :
    (mkResidual gm y amt).grantmaker = gm := rfl

theorem mkResidual_date (gm y : String) (amt : ℚ) :
    (mkResidual gm y amt).date = y ++ "-07-01" := rfl

theorem mkResidual_amount (gm y : String) (amt : ℚ) :
    (mkResidual gm y amt).amount = amt := rfl

theorem mkResidual_exclude (gm y : String) (amt : ℚ) :
    (mkResidual gm y amt).exclude_from_total = false := rfl

/-- Emission characterization of the inner year loop. -/
theorem mem_residualsForYears (known : String → String → ℚ) (gm : String)
    (yts : List (String × ℚ)) (r : Grant) :
    r ∈ residualsForYears known gm yts ↔
      ∃ yp ∈ yts, startsWithUnderscore yp.1 = false ∧
        (yp.2 - known gm yp.1 > 100000 ∧ (yp.2 - known gm yp.1) / yp.2 > 5 / 100) ∧
        r = mkResidual gm yp.1 (yp.2 - known gm yp.1) := by
  induction yts with
  | nil => simp [residualsForYears]
  | cons yp rest ih =>
    rw [residualsForYears]
    by_cases hu : startsWithUnderscore yp.1 = true
    · rw [if_pos hu, ih]
      constructor
      · rintro ⟨yq, hmem, hq⟩
        exact ⟨yq, List.mem_cons_of_mem _ hmem, hq⟩
      · rintro ⟨yq, hmem, h1, h2⟩
        rcases List.mem_cons.mp hmem with rfl | hmem'
        · exact absurd hu (by rw [h1]; simp)
        · exact ⟨yq, hmem', h1, h2⟩
    · rw [if_neg hu]
      have hu' : startsWithUnderscore yp.1 = false := by
        cases h : startsWithUnderscore yp.1
        · rfl
        · exact absurd h hu
      by_cases hcond : yp.2 - known gm yp.1 > 100000 ∧
          (yp.2 - known gm yp.1) / yp.2 > 5 / 100
      · simp only [if_pos hcond, List.mem_cons, ih]
        constructor
        · rintro (rfl | ⟨yq, hmem, hq⟩)
          · exact ⟨yp, Or.inl rfl, hu', hcond, rfl⟩
          · exact ⟨yq, Or.inr hmem, hq⟩
        · rintro ⟨yq, rfl | hmem', h1, h2, h3⟩
          · exact Or.inl h3
          · exact Or.inr ⟨yq, hmem', h1, h2, h3⟩
      · simp only [if_neg hcond, ih]
        constructor
        · rintro ⟨yq, hmem, hq⟩
          exact ⟨yq, List.mem_cons_of_mem _ hmem, hq⟩
        · rintro ⟨yq, hmem, h1, h2, h3⟩
          rcases List.mem_cons.mp hmem with rfl | hmem'
          · exact absurd h2 hcond
          · exact ⟨yq, hmem', h1, h2, h3⟩

/-- Emission characterization of the outer grantmaker loop. -/
theorem mem_residualsTables (known : String → String → ℚ) (table : TotalsTable)
    (r : Grant) :
    r ∈ residualsTables known table ↔
      ∃ e ∈ table, startsWithUnderscore e.1 = false ∧
        r ∈ residualsForYears known e.1 e.2 := by
  induction table with
  | nil => simp [residualsTables]
  | cons e rest ih =>
    rw [residualsTables]
    by_cases hu : startsWithUnderscore e.1 = true
    · rw [if_pos hu, ih]
      constructor
      · rintro ⟨e', hmem, hq⟩
        exact ⟨e', List.mem_cons_of_mem _ hmem, hq⟩
      · rintro ⟨e', hmem, h1, h2⟩
        rcases List.mem_cons.mp hmem with rfl | hmem'
        · exact absurd hu (by rw [h1]; simp)
        · exact ⟨e', hmem', h1, h2⟩
    · rw [if_neg hu]
      have hu' : startsWithUnderscore e.1 = false := by
        cases h : startsWithUnderscore e.1
        · rfl
        · exact absurd h hu
      rw [List.mem_append, ih]
      constructor
      · rintro (hin | ⟨e', hmem, hq⟩)
        · exact ⟨e, List.mem_cons_self _ _, hu', hin⟩
        · exact ⟨e', List.mem_cons_of_mem _ hmem, hq⟩
      · rintro ⟨e', hmem, h1, h2⟩
        rcases List.mem_cons.mp hmem with rfl | hmem'
        · exact Or.inl h2
        · exact Or.inr ⟨e', hmem', h1, h2⟩

/-- In an association list with pairwise-distinct keys, a key determines its
value. -/
theorem nodup_keys_eq {α : Type} :
    ∀ {l : List (String × α)}, (l.map Prod.fst).Nodup →
      ∀ {k : String} {a b : α}, (k, a) ∈ l → (k, b) ∈ l → a = b := by
  intro l
  induction l with
  | nil => intro _ k a b ha _; exact absurd ha (List.not_mem_nil _)
  | cons p rest ih =>
    intro hnd k a b ha hb
    rw [List.map_cons, List.nodup_cons] at hnd
    rcases List.mem_cons.mp ha with rfl | ha'
    · rcases List.mem_cons.mp hb with heq | hb'
      · exact (congrArg Prod.snd heq).symm
      · exact absurd (List.mem_map_of_mem Prod.fst hb') (by simpa using hnd.1)
    · rcases List.mem_cons.mp hb with rfl | hb'
      · exact absurd (List.mem_map_of_mem Prod.fst ha') (by simpa using hnd.1)
      · exact ih hnd.2 ha' hb'

/-- Right-cancellation for string append. -/
theorem string_append_cancel {a b s : String} (h : a ++ s = b ++ s) : a = b := by
  apply String.ext
  have := congrArg String.data h
  rw [String.data_append, String.data_append] at this
  exact List.append_cancel_right this

/-! ## Sorting lemmas -/

theorem dataLt_lex :
    ∀ as bs : List Char, dataLt as bs = true ↔ List.Lex (· < ·) as bs := by
  intro as
  induction as with
  | nil =>
    intro bs
    cases bs with
    | nil =>
      simp only [dataLt]
      exact ⟨fun h => absurd h Bool.false_ne_true, fun h => by cases h⟩
    | cons b bs =>
      simp only [dataLt]
      exact ⟨fun _ => List.Lex.nil, fun _ => trivial⟩
  | cons a as ih =>
    intro bs
    cases bs with
    | nil =>
      simp only [dataLt]
      exact ⟨fun h => absurd h Bool.false_ne_true, fun h => by cases h⟩
    | cons b bs =>
      rw [dataLt]
      by_cases hab : a < b
      · rw [if_pos hab]
        exact ⟨fun _ => List.Lex.rel hab, fun _ => rfl⟩
      · rw [if_neg hab]
        by_cases hba : b < a
        · rw [if_pos hba]
          constructor
          · intro h; exact absurd h Bool.false_ne_true
          · intro h
            cases h with
            | cons h1 => exact absurd hba (lt_irrefl a)
            | rel h1 => exact absurd h1 hab
        · rw [if_neg hba]
          have heq : a = b := le_antisymm (not_lt.mp hba) (not_lt.mp hab)
          subst heq
          rw [ih bs]
          constructor
          · exact fun h => List.Lex.cons h
          · intro h
            cases h with
            | cons h1 => exact h1
            | rel h1 => exact absurd h1 hab

theorem strLt_iff (a b : String) : strLt a b = true ↔ a < b := by
  rw [String.lt_iff_toList_lt]
  exact dataLt_lex a.data b.data

theorem mem_insertByDateDesc (g x : Grant) :
    ∀ acc : List Grant, x ∈ insertByDateDesc g acc ↔ x = g ∨ x ∈ acc := by
  intro acc
  induction acc with
  | nil => simp [insertByDateDesc]
  | cons h t ih =>
    rw [insertByDateDesc]
    split
    · simp [List.mem_cons]
    · rw [List.mem_cons, List.mem_cons, ih]
      tauto

theorem insertByDateDesc_sorted (g : Grant) :
    ∀ acc : List Grant, List.Sorted dateGE acc →
      List.Sorted dateGE (insertByDateDesc g acc) := by
  intro acc
  induction acc with
  | nil => intro _; simp [insertByDateDesc, List.Sorted]
  | cons h t ih =>
    intro hs
    rw [insertByDateDesc]
    split
    · rename_i hlt
      have hlt' : h.date < g.date := (strLt_iff _ _).mp hlt
      rw [List.sorted_cons]
      refine ⟨?_, hs⟩
      intro b hb
      rcases List.mem_cons.mp hb with rfl | hb'
      · exact le_of_lt hlt'
      · exact le_trans (List.rel_of_sorted_cons hs b hb') (le_of_lt hlt')
    · rename_i hnlt
      have hge : g.date ≤ h.date := not_lt.mp (fun hc => hnlt ((strLt_iff _ _).mpr hc))
      rw [List.sorted_cons]
      refine ⟨?_, ih (List.sorted_cons.mp hs).2⟩
      intro b hb
      rcases (mem_insertByDateDesc g b t).mp hb with rfl | hb'
      · exact hge
      · exact List.rel_of_sorted_cons hs b hb'

theorem insertByDateDesc_perm (g : Grant) :
    ∀ acc : List Grant, (insertByDateDesc g acc).Perm (g :: acc) := by
  intro acc
  induction acc with
  | nil => simp [insertByDateDesc]
  | cons h t ih =>
    rw [insertByDateDesc]
    split
    · exact List.Perm.refl _
    · exact (List.Perm.cons h ih).trans (List.Perm.swap g h t)

theorem insertByDateDesc_filter_eq (d : String) (g : Grant) (hgd : g.date = d) :
    ∀ acc : List Grant, List.Sorted dateGE acc →
      (insertByDateDesc g acc).filter (fun x => x.date == d)
        = acc.filter (fun x => x.date == d) ++ [g] := by
  intro acc
  induction acc with
  | nil => simp [insertByDateDesc, hgd]
  | cons h t ih =>
    intro hs
    rw [insertByDateDesc]
    split
    · rename_i hlt
      have hlt' : h.date < g.date := (strLt_iff _ _).mp hlt
      have hnil : (h :: t).filter (fun x => x.date == d) = [] := by
        rw [List.filter_eq_nil_iff]
        intro b hb
        have hble : b.date ≤ h.date := by
          rcases List.mem_cons.mp hb with rfl | hb'
          · exact le_refl _
          · exact List.rel_of_sorted_cons hs b hb'
        have : b.date < d := lt_of_le_of_lt hble (hgd ▸ hlt')
        simp only [beq_iff_eq]
        exact ne_of_lt this
      rw [List.filter_cons, if_pos (by simp [hgd]), hnil]
      rfl
    · rw [List.filter_cons, List.filter_cons, ih (List.sorted_cons.mp hs).2]
      split
      · rfl
      · rfl

theorem insertByDateDesc_filter_ne (d : String) (g : Grant) (hgd : ¬ g.date = d) :
    ∀ acc : List Grant,
      (insertByDateDesc g acc).filter (fun x => x.date == d)
        = acc.filter (fun x => x.date == d) := by
  intro acc
  induction acc with
  | nil => simp [insertByDateDesc, hgd]
  | cons h t ih =>
    rw [insertByDateDesc]
    split
    · rw [List.filter_cons (x := g), if_neg (by simp [hgd])]
    · rw [List.filter_cons, List.filter_cons, ih]

/-- Invariant of the insertion fold: sortedness, per-date stability, and
permutation with the records folded so far. -/
theorem sortFold_spec :
    ∀ (gs acc : List Grant), List.Sorted dateGE acc →
      List.Sorted dateGE (gs.foldl (fun acc g => insertByDateDesc g acc) acc)
      ∧ (∀ d : String,
          (gs.foldl (fun acc g => insertByDateDesc g acc) acc).filter (fun x => x.date == d)
            = acc.filter (fun x => x.date == d) ++ gs.filter (fun x => x.date == d))
      ∧ (gs.foldl (fun acc g => insertByDateDesc g acc) acc).Perm (acc ++ gs) := by
  intro gs
  induction gs with
  | nil =>
    intro acc hacc
    exact ⟨hacc, fun d => by simp, by simp⟩
  | cons g gs ih =>
    intro acc hacc
    rw [List.foldl_cons]
    obtain ⟨ha, hb, hc⟩ := ih (insertByDateDesc g acc) (insertByDateDesc_sorted g acc hacc)
    refine ⟨ha, ?_, ?_⟩
    · intro d
      rw [hb d, List.filter_cons]
      by_cases hgd : g.date = d
      · rw [insertByDateDesc_filter_eq d g hgd acc hacc, if_pos (by simp [hgd]),
          List.append_assoc, List.singleton_append]
      · rw [insertByDateDesc_filter_ne d g hgd acc, if_neg (by simp [hgd])]
    · refine hc.trans ?_
      have h1 : (insertByDateDesc g acc ++ gs).Perm ((g :: acc) ++ gs) :=
        List.Perm.append_right gs (insertByDateDesc_perm g acc)
      refine h1.trans ?_
      rw [List.cons_append]
      exact List.perm_middle.symm

theorem sortByDateDesc_spec (gs : List Grant) :
    List.Sorted dateGE (sortByDateDesc gs)
    ∧ (∀ d : String,
        (sortByDateDesc gs).filter (fun x => x.date == d)
          = gs.filter (fun x => x.date == d))
    ∧ (sortByDateDesc gs).Perm gs := by
  have h := sortFold_spec gs [] (by simp [List.Sorted])
  refine ⟨h.1, fun d => by simpa using h.2.1 d, by simpa using h.2.2⟩

/-- For positive amounts the zero guard is inert and `amountsMatch` is the
ratio test. -/
theorem amountsMatch_pos (a b : ℚ) (ha : 0 < a) (hb : 0 < b) :
    amountsMatch a b = true ↔ max a b / min a b ≤ 11 / 10 := by
  rw [amountsMatch, if_neg (by push_neg; exact ⟨ha.ne', hb.ne'⟩)]
  exact decide_eq_true_iff

/-- A successful amount match implies both amounts are nonzero. -/
theorem amountsMatch_ne_zero (a b : ℚ) (h : amountsMatch a b = true) :
    a ≠ 0 ∧ b ≠ 0 := by
  by_cases hz : a = 0 ∨ b = 0
  · rw [amountsMatch, if_pos hz] at h
    exact absurd h Bool.false_ne_true
  · push_neg at hz
    exact hz

/-- `datesClose` holds exactly when both dates parse and the timestamps are
strictly within 90 days. -/
theorem datesClose_iff (a b : String) :
    datesClose a b = true ↔
      ∃ ta tb : Int, parseDateMs a = some ta ∧ parseDateMs b = some tb ∧
        (ta - tb).natAbs < 90 * 86400000 := by
  cases ha : parseDateMs a with
  | none => simp [datesClose, ha]
  | some ta =>
    cases hb : parseDateMs b with
    | none => simp [datesClose, ha, hb]
    | some tb => simp [datesClose, ha, hb]

/-- Layer-1-flagged grants contribute nothing to the residual known totals. -/
theorem knownTotalsFold_filter (gs : List Grant) (gm y : String) :
    knownTotalsFold (gs.filter (fun g => !g.exclude_from_total)) gm y
      = knownTotalsFold gs gm y := by
  induction gs with
  | nil => rfl
  | cons g rest ih =>
    rw [List.filter_cons]
    cases hflag : g.exclude_from_total
    · rw [if_pos (by rfl)]
      simp only [knownTotalsFold, hflag, ih]
    · rw [if_neg (by simp)]
      rw [ih]
      simp [knownTotalsFold, hflag]

theorem mem_computeResiduals (gs : List Grant) (table : TotalsTable) (r : Grant) :
    r ∈ computeResiduals gs table ↔
      ∃ e ∈ table, startsWithUnderscore e.1 = false ∧
        r ∈ residualsForYears (knownTotalsFold gs) e.1 e.2 :=
  mem_residualsTables (knownTotalsFold gs) table r

/-- Every emitted residual grant has `exclude_from_total = false`. -/
theorem computeResiduals_exclude (gs : List Grant) (table : TotalsTable) :
    ∀ r ∈ computeResiduals gs table, r.exclude_from_total = false := by
  intro r hr
  obtain ⟨e, _, _, hin⟩ := (mem_computeResiduals gs table r).mp hr
  obtain ⟨yp, _, _, _, rfl⟩ := (mem_residualsForYears _ _ _ _).mp hin
  rfl

/-- Membership in the final sorted sequence is membership in
deduplicated-plus-residuals. -/
theorem mem_pipelineFinal (gs : List Grant) (table : TotalsTable) (g : Grant) :
    g ∈ pipelineFinal gs table ↔
      g ∈ (deduplicateGrants gs).grants
          ++ computeResiduals (deduplicateGrants gs).grants table :=
  (sortByDateDesc_spec _).2.2.mem_iff

/-- Two grants in the same recipient group, from different grantmakers and
neither excluded by Layer 1, are merged exactly when the amount/date guards
pass. -/
theorem dedup_two_fuzzy (g1 g2 : Grant)
    (hexc1 : g1.exclude_from_total = false) (hexc2 : g2.exclude_from_total = false)
    (hrec : normalizeRecipient g1.recipient = normalizeRecipient g2.recipient)
    (hgm : ¬ g1.grantmaker = g2.grantmaker) :
    (deduplicateGrants [g1, g2]).stats.fuzzyMerged
      = if (amountsMatch g2.amount g1.amount && datesClose g2.date g1.date) = true
        then 1 else 0 := by
  have hlayer : [g1, g2].filter (fun g => !g.exclude_from_total) = [g1, g2] := by
    simp [List.filter_cons, hexc1, hexc2]
  have hgrp : groupByRecipient [g1, g2]
      = [(normalizeRecipient g1.recipient, [g1, g2])] := by
    show addToGroups [(normalizeRecipient g1.recipient, [g1])]
        (normalizeRecipient g2.recipient) g2
      = [(normalizeRecipient g1.recipient, [g1, g2])]
    rw [addToGroups, if_pos hrec]
    rfl
  have hbeq : (g1.grantmaker == g2.grantmaker) = false := beq_eq_false_iff_ne.mpr hgm
  have hmain : (deduplicateGrants [g1, g2]).stats.fuzzyMerged
      = (goGroup [g1, g2] [] initState).2.fuzzyMerged := by
    simp only [deduplicateGrants, hlayer, hgrp, List.map_cons, List.map_nil]
    simp only [procAll, procGroup]
    rw [if_neg (by simp)]
  rw [hmain]
  have hgo1 : goGroup [g1, g2] [] initState = goGroup [g2] [(g1, true)] initState := by
    rw [goGroup, if_neg (by simp [initState])]
    have h0 : tryMerge g1 initState.seen [] = none := rfl
    rw [h0]
    rfl
  rw [hgo1]
  cases hMD : amountsMatch g2.amount g1.amount && datesClose g2.date g1.date with
  | false =>
    have hcond : (!(initState.seen.contains g1.id) && !(g1.grantmaker == g2.grantmaker) &&
        amountsMatch g2.amount g1.amount && datesClose g2.date g1.date) = false := by
      rcases Bool.and_eq_false_iff.mp hMD with h | h <;> simp [h]
    have htm : tryMerge g2 initState.seen [(g1, true)] = none := by
      rw [tryMerge, if_neg (by rw [hcond]; exact Bool.false_ne_true)]
      rfl
    rw [goGroup, if_neg (by simp [initState]), htm]
    simp [goGroup, initState]
  | true =>
    have hM : amountsMatch g2.amount g1.amount = true ∧ datesClose g2.date g1.date = true := by
      simpa using hMD
    have hcond : (!(initState.seen.contains g1.id) && !(g1.grantmaker == g2.grantmaker) &&
        amountsMatch g2.amount g1.amount && datesClose g2.date g1.date) = true := by
      simp [initState, hbeq, hM.1, hM.2]
    have htm : tryMerge g2 initState.seen [(g1, true)]
        = some ([(mergeFunders g1 g2, true)], g1, mergeFunders g1 g2) := by
      rw [tryMerge, if_pos hcond]
    rw [goGroup, if_neg (by simp [initState]), htm]
    simp [goGroup, initState]

/-! ## Claims -/

/-- Claim C1, counterexample: a grant with `exclude_from_total = true` is in
the input, but the final emitted sequence handed to persistence is empty —
dedup Layer 1 removes flagged grants instead of keeping them, so the claim's
"still present in the final emitted grant sequence" is false. -/
theorem C1_counterexample :
    c1ex.exclude_from_total = true
    ∧ c1ex ∈ [c1ex]
    ∧ pipelineFinal [c1ex] [] = []
    ∧ (deduplicateGrants [c1ex]).grants = []
    ∧ (deduplicateGrants [c1ex]).stats.excluded = 1 := by
  exact ⟨by decide, by decide, by decide, by decide, by decide⟩

/-- Claim C1, amended: a grant flagged `exclude_from_total = true` contributes
to no aggregate total — it is removed by dedup Layer 1, every record of the
final emitted sequence is unflagged (so flagged grants contribute to no sum
over that sequence), and the residual known-totals function is unchanged by
dropping flagged grants — but it is also absent from the emitted sequence
rather than retained. -/
theorem C1_amended (gs : List Grant) (table : TotalsTable) :
    (∀ g ∈ pipelineFinal gs table, g.exclude_from_total = false)
    ∧ (∀ gm y, knownTotalsFold (gs.filter (fun g => !g.exclude_from_total)) gm y
        = knownTotalsFold gs gm y) := by
  refine ⟨?_, fun gm y => knownTotalsFold_filter gs gm y⟩
  intro g hg
  rcases List.mem_append.mp ((mem_pipelineFinal gs table g).mp hg) with h | h
  · exact deduplicateGrants_preserve gs g h
  · exact computeResiduals_exclude (deduplicateGrants gs).grants table g h

/-- Claim C1 witness: the amended theorem applied to a concrete one-grant
pipeline run. -/
theorem C1_amended_witness :
    c1inc ∈ pipelineFinal [c1inc] [] ∧ c1inc.exclude_from_total = false :=
  ⟨by decide, (C1_amended [c1inc] []).1 c1inc (by decide)⟩

/-- Claim C3, counterexample: two grants in one recipient group from different
grantmakers with equal amounts (ratio 1 ≤ 1.10) and dates exactly 90 days
apart (within "at most 90 days") are **not** merged — the code's `datesClose`
uses a strict `< 90 days` comparison. -/
theorem C3_counterexample :
    normalizeRecipient c3a.recipient = normalizeRecipient c3b.recipient
    ∧ ¬ c3a.grantmaker = c3b.grantmaker
    ∧ max c3a.amount c3b.amount / min c3a.amount c3b.amount ≤ 11 / 10
    ∧ parseDateMs c3a.date = some 1672531200000
    ∧ parseDateMs c3b.date = some 1680307200000
    ∧ ((1680307200000 - 1672531200000 : Int) = 90 * 86400000)
    ∧ (deduplicateGrants [c3a, c3b]).stats.fuzzyMerged = 0
    ∧ (deduplicateGrants [c3a, c3b]).grants.length = 2 := by
  exact ⟨by decide, by decide, by with_unfolding_all decide, by decide, by decide,
    by decide, by with_unfolding_all decide, by with_unfolding_all decide⟩

/-- Claim C3, amended: within a recipient group, two grants from different
grantmakers (with positive amounts) are merged by Layer 2 exactly when the
amount ratio `max/min` is at most 1.10 **and** the dates are *strictly less
than* 90 days apart (both parsing as valid dates). -/
theorem C3_amended (g1 g2 : Grant)
    (hexc1 : g1.exclude_from_total = false) (hexc2 : g2.exclude_from_total = false)
    (hrec : normalizeRecipient g1.recipient = normalizeRecipient g2.recipient)
    (hgm : ¬ g1.grantmaker = g2.grantmaker)
    (ha1 : 0 < g1.amount) (ha2 : 0 < g2.amount) :
    (deduplicateGrants [g1, g2]).stats.fuzzyMerged = 1
      ↔ (max g1.amount g2.amount / min g1.amount g2.amount ≤ 11 / 10
         ∧ ∃ t1 t2 : Int, parseDateMs g1.date = some t1 ∧ parseDateMs g2.date = some t2
             ∧ (t1 - t2).natAbs < 90 * 86400000) := by
  rw [dedup_two_fuzzy g1 g2 hexc1 hexc2 hrec hgm]
  have hA : amountsMatch g2.amount g1.amount = true
      ↔ max g1.amount g2.amount / min g1.amount g2.amount ≤ 11 / 10 := by
    rw [amountsMatch_pos g2.amount g1.amount ha2 ha1, max_comm, min_comm]
  have hD : datesClose g2.date g1.date = true
      ↔ ∃ t1 t2 : Int, parseDateMs g1.date = some t1 ∧ parseDateMs g2.date = some t2
          ∧ (t1 - t2).natAbs < 90 * 86400000 := by
    rw [datesClose_iff]
    constructor
    · rintro ⟨tb, ta, hb, ha, hd⟩
      exact ⟨ta, tb, ha, hb, by rwa [← Int.natAbs_neg, neg_sub] at hd⟩
    · rintro ⟨ta, tb, ha, hb, hd⟩
      exact ⟨tb, ta, hb, ha, by rwa [← Int.natAbs_neg, neg_sub]⟩
  constructor
  · intro h
    have hcond : (amountsMatch g2.amount g1.amount && datesClose g2.date g1.date) = true := by
      by_contra hc
      rw [if_neg hc] at h
      exact absurd h (by norm_num)
    rw [Bool.and_eq_true] at hcond
    exact ⟨hA.mp hcond.1, hD.mp hcond.2⟩
  · rintro ⟨h1, h2⟩
    rw [if_pos (by rw [Bool.and_eq_true]; exact ⟨hA.mpr h1, hD.mpr h2⟩)]

/-- Claim C3 witness: the amended criterion applied to a concrete merging
pair (amount ratio 1.05, dates 5 days apart). -/
theorem C3_amended_witness :
    (deduplicateGrants [c3w1, c3w2]).stats.fuzzyMerged = 1 :=
  (C3_amended c3w1 c3w2 rfl rfl rfl (by decide) (by decide) (by decide)).mpr
    ⟨by with_unfolding_all decide,
     1672531200000, 1672963200000, by decide, by decide, by decide⟩

/-- Claim C4, counterexample: a keeper whose `funders` was previously the
**empty array** is not reseeded (`!keeper.funders` is false for `[]` in JS),
so after the merge its `funders` is `["B"]`, which does not contain the
keeper's own grantmaker `"A"` — refuting "always contains the keeper's own
grantmaker (seeded when previously empty)". -/
theorem C4_counterexample :
    c4k.funders = some []
    ∧ c4k.grantmaker = "A"
    ∧ (deduplicateGrants [c4k, c4d]).stats.fuzzyMerged = 1
    ∧ ∀ g ∈ (deduplicateGrants [c4k, c4d]).grants,
        g.funders = some ["B"] ∧ ¬ "A" ∈ ["B"] := by
  with_unfolding_all decide

/-- Claim C4, amended: after every Layer-2 merge the keeper's `funders` is a
duplicate-free set containing the removed duplicate's grantmaker; it contains
the keeper's own grantmaker whenever `funders` was previously *absent*
(undefined, in which case it is seeded) or already contained it — an empty or
keeper-less `funders` array is not reseeded. -/
theorem C4_amended (gs : List Grant) (e : MergeEvent)
    (he : e ∈ (deduplicateGrants gs).merges) :
    ∃ fs, e.keeperAfter.funders = some fs ∧ fs.Nodup
      ∧ e.dup.grantmaker ∈ fs
      ∧ ((e.keeperBefore.funders = none
          ∨ e.keeperBefore.grantmaker ∈ e.keeperBefore.funders.getD [])
         → e.keeperBefore.grantmaker ∈ fs) := by
  obtain ⟨hka, _, _, _⟩ := deduplicateGrants_merges gs e he
  obtain ⟨fs, hfs, hnd, hdup, hmem⟩ := mergeFunders_funders e.keeperBefore e.dup
  refine ⟨fs, by rw [hka]; exact hfs, hnd, hdup, ?_⟩
  rintro (hnone | hin)
  · rw [hmem]
    left
    rw [hnone]
    exact List.mem_singleton.mpr rfl
  · rw [hmem]
    cases hf : e.keeperBefore.funders with
    | none =>
      left
      exact List.mem_singleton.mpr rfl
    | some l =>
      left
      rw [hf] at hin
      exact hin

/-- Claim C4 witness: the amended statement at the concrete merge of
`deduplicateGrants [c4wk, c4wd]` (keeper's `funders` absent, so it is seeded
with the keeper's grantmaker). -/
theorem C4_amended_witness :
    ∃ fs, c4we.keeperAfter.funders = some fs ∧ fs.Nodup
      ∧ c4we.dup.grantmaker ∈ fs
      ∧ ((c4we.keeperBefore.funders = none
          ∨ c4we.keeperBefore.grantmaker ∈ c4we.keeperBefore.funders.getD [])
         → c4we.keeperBefore.grantmaker ∈ fs) :=
  C4_amended [c4wk, c4wd] c4we (by with_unfolding_all decide)

/-- Claim C5, counterexample: with duplicate ids in the input, a record can be
skipped by the `seen` check without being emitted or counted as a duplicate
($50 vanishes), so dollar conservation fails for arbitrary input lists. -/
theorem C5_counterexample :
    dollarSum [c5a, c5b, c5c] = 250
    ∧ dollarSum (deduplicateGrants [c5a, c5b, c5c]).grants
        + dollarSum (deduplicateGrants [c5a, c5b, c5c]).excludedGrants
        + dollarSum (dupsOf (deduplicateGrants [c5a, c5b, c5c]).merges) = 200
    ∧ ¬ dollarSum [c5a, c5b, c5c]
        = dollarSum (deduplicateGrants [c5a, c5b, c5c]).grants
          + dollarSum (deduplicateGrants [c5a, c5b, c5c]).excludedGrants
          + dollarSum (dupsOf (deduplicateGrants [c5a, c5b, c5c]).merges) := by
  exact ⟨by with_unfolding_all decide, by with_unfolding_all decide,
    by with_unfolding_all decide⟩

/-- Claim C5, amended: when the input records' ids are pairwise distinct, the
total input dollar sum equals the emitted sum plus the Layer-1 removals plus
the Layer-2 merged duplicates — no dollar is created or destroyed. -/
theorem C5_amended (gs : List Grant) (h : (gs.map Grant.id).Nodup) :
    dollarSum gs = dollarSum (deduplicateGrants gs).grants
      + dollarSum (deduplicateGrants gs).excludedGrants
      + dollarSum (dupsOf (deduplicateGrants gs).merges) := by
  have h1 := deduplicateGrants_sum gs h
  have h2 := dollarSum_split_exclude gs
  have hexg : (deduplicateGrants gs).excludedGrants
      = gs.filter (fun g => g.exclude_from_total) := rfl
  rw [hexg]
  linarith

/-- Claim C5 witness: conservation on a concrete two-grant run with one
Layer-1 removal. -/
theorem C5_amended_witness :
    ([c5wa, c5wb].map Grant.id).Nodup
    ∧ dollarSum [c5wa, c5wb] = dollarSum (deduplicateGrants [c5wa, c5wb]).grants
        + dollarSum (deduplicateGrants [c5wa, c5wb]).excludedGrants
        + dollarSum (dupsOf (deduplicateGrants [c5wa, c5wb]).merges) :=
  ⟨by decide, C5_amended [c5wa, c5wb] (by decide)⟩

/-- Claim C6, counterexample: the division guard only tests for **zero**
amounts; two records with negative amounts (−100 each) pass the ratio test
(`max/min = 1 ≤ 1.10`) and are merged, refuting "zero/negative … never
matched". -/
theorem C6_counterexample :
    amountsMatch (-100) (-100) = true
    ∧ amountsMatch 100 (-100) = true
    ∧ c6a.amount = -100 ∧ c6b.amount = -100
    ∧ (deduplicateGrants [c6a, c6b]).stats.fuzzyMerged = 1
    ∧ (deduplicateGrants [c6a, c6b]).grants.length = 1 := by
  exact ⟨by with_unfolding_all decide, by with_unfolding_all decide, by decide,
    by decide, by with_unfolding_all decide, by with_unfolding_all decide⟩

/-- Claim C6, amended: pairs in which either amount is **zero** are excluded
by the division guard and never matched — every executed merge involves two
nonzero amounts — but the guard does not cover negative amounts, which can
still be matched and merged. -/
theorem C6_amended :
    (∀ a b : ℚ, a = 0 ∨ b = 0 → amountsMatch a b = false)
    ∧ ∀ (gs : List Grant) (e : MergeEvent), e ∈ (deduplicateGrants gs).merges →
        e.dup.amount ≠ 0 ∧ e.keeperBefore.amount ≠ 0 := by
  constructor
  · intro a b h
    rw [amountsMatch, if_pos h]
  · intro gs e he
    obtain ⟨_, _, ham, _⟩ := deduplicateGrants_merges gs e he
    exact amountsMatch_ne_zero _ _ ham

/-- Claim C6 witness: the zero guard at (0, 5), and a concrete merge whose
duplicate has nonzero amount. -/
theorem C6_amended_witness :
    amountsMatch 0 5 = false ∧ c6we.dup.amount ≠ 0 :=
  ⟨C6_amended.1 0 5 (Or.inl rfl),
   (C6_amended.2 [c6wa, c6wb] c6we (by with_unfolding_all decide)).1⟩

/-- Claim C7: Layer 2 never merges two records of the same grantmaker — every
executed merge pairs a keeper and a duplicate from different grantmakers. -/
theorem C7_no_same_grantmaker_merge (gs : List Grant) (e : MergeEvent)
    (he : e ∈ (deduplicateGrants gs).merges) :
    ¬ e.keeperBefore.grantmaker = e.dup.grantmaker :=
  (deduplicateGrants_merges gs e he).2.1

/-- Claim C7 witness: the theorem at the concrete merge of
`deduplicateGrants [c7a, c7b]`. -/
theorem C7_no_same_grantmaker_merge_witness :
    ¬ c7we.keeperBefore.grantmaker = c7we.dup.grantmaker :=
  C7_no_same_grantmaker_merge [c7a, c7b] c7we (by with_unfolding_all decide)

/-- Claim C2: for every (grantmaker, year) entry of the published-totals
table, a residual record is emitted iff `residual > 100000` and
`residual / published > 0.05`, where the known total is the sum of that
grantmaker's non-residual, non-excluded grants dated in that year (0 when
there are none, so an unitemized grantmaker yields the full published total);
and every emitted residual has positive amount. -/
theorem C2_residual_emission (gs : List Grant) (table : TotalsTable)
    (hN : (table.map Prod.fst).Nodup)
    (G : String) (yts : List (String × ℚ)) (hG : (G, yts) ∈ table)
    (hGu : startsWithUnderscore G = false)
    (hYN : (yts.map Prod.fst).Nodup)
    (Y : String) (pub : ℚ) (hY : (Y, pub) ∈ yts)
    (hYu : startsWithUnderscore Y = false) :
    ((∃ r ∈ computeResiduals gs table, r.grantmaker = G ∧ r.date = Y ++ "-07-01")
      ↔ (pub - knownTotalsFold gs G Y > 100000
          ∧ (pub - knownTotalsFold gs G Y) / pub > 5 / 100))
    ∧ knownTotalsFold gs G Y = dollarSum (gs.filter (fun g =>
        !g.is_residual && !g.exclude_from_total && (g.grantmaker == G) && (yearOf g == Y)))
    ∧ ∀ r ∈ computeResiduals gs table, 0 < r.amount := by
  refine ⟨⟨?_, ?_⟩, knownTotalsFold_eq gs G Y, ?_⟩
  · rintro ⟨r, hr, hgm, hdate⟩
    obtain ⟨⟨G', yts'⟩, heT, heU, hin⟩ := (mem_computeResiduals gs table r).mp hr
    obtain ⟨⟨Y', pub'⟩, hyT, hyU, hcond, rfl⟩ := (mem_residualsForYears _ _ _ _).mp hin
    rw [mkResidual_grantmaker] at hgm
    rw [mkResidual_date] at hdate
    have hy : Y' = Y := string_append_cancel hdate
    subst hgm
    subst hy
    have hyts : yts' = yts := nodup_keys_eq hN heT hG
    subst hyts
    have hpub : pub' = pub := nodup_keys_eq hYN hyT hY
    subst hpub
    exact hcond
  · intro hc
    exact ⟨mkResidual G Y (pub - knownTotalsFold gs G Y),
      (mem_computeResiduals gs table _).mpr ⟨(G, yts), hG, hGu,
        (mem_residualsForYears _ _ _ _).mpr ⟨(Y, pub), hY, hYu, hc, rfl⟩⟩,
      rfl, rfl⟩
  · intro r hr
    obtain ⟨⟨G', yts'⟩, _, _, hin⟩ := (mem_computeResiduals gs table r).mp hr
    obtain ⟨⟨Y', pub'⟩, _, _, hcond, rfl⟩ := (mem_residualsForYears _ _ _ _).mp hin
    rw [mkResidual_amount]
    have := hcond.1
    linarith

/-- Claim C2 witness: a grantmaker absent from itemized data produces a
residual equal to its entire published total. -/
theorem C2_residual_emission_witness :
    ∃ r ∈ computeResiduals [] [("GiveWell", [("2020", (1000000 : ℚ))])],
      r.grantmaker = "GiveWell" ∧ r.date = "2020" ++ "-07-01" :=
  (C2_residual_emission [] [("GiveWell", [("2020", 1000000)])] (by decide)
      "GiveWell" [("2020", 1000000)] (by decide) (by decide) (by decide)
      "2020" 1000000 (by decide) (by decide)).1.mpr
    (by constructor <;> with_unfolding_all decide)

/-- Claim C8: the final emitted sequence is the stable descending sort by the
date string of (deduplicated grants ++ residuals): it is sorted by date
descending, entries sharing a date keep their insertion order (the per-date
subsequences are unchanged), and it is a permutation of the concatenation. -/
theorem C8_final_sorted (gs : List Grant) (table : TotalsTable) :
    List.Sorted dateGE (pipelineFinal gs table)
    ∧ (∀ d : String, (pipelineFinal gs table).filter (fun g => g.date == d)
        = ((deduplicateGrants gs).grants
            ++ computeResiduals (deduplicateGrants gs).grants table).filter
            (fun g => g.date == d))
    ∧ (pipelineFinal gs table).Perm
        ((deduplicateGrants gs).grants
          ++ computeResiduals (deduplicateGrants gs).grants table) :=
  sortByDateDesc_spec _

/-- Claim C9: with pairwise-distinct ids, the dedup stats partition the input:
`totalBefore = excluded + fuzzyMerged + totalAfter`, and `totalAfter` is the
length of the returned grant list. -/
theorem C9_stats_partition (gs : List Grant) (h : (gs.map Grant.id).Nodup) :
    (deduplicateGrants gs).stats.totalBefore
        = (deduplicateGrants gs).stats.excluded
          + (deduplicateGrants gs).stats.fuzzyMerged
          + (deduplicateGrants gs).stats.totalAfter
    ∧ (deduplicateGrants gs).stats.totalAfter = (deduplicateGrants gs).grants.length := by
  have hcount := deduplicateGrants_count gs h
  have hle : (gs.filter (fun g => !g.exclude_from_total)).length ≤ gs.length :=
    List.length_filter_le _ _
  have htb : (deduplicateGrants gs).stats.totalBefore = gs.length := rfl
  have hex : (deduplicateGrants gs).stats.excluded
      = gs.length - (gs.filter (fun g => !g.exclude_from_total)).length := rfl
  have hta : (deduplicateGrants gs).stats.totalAfter
      = (deduplicateGrants gs).grants.length := rfl
  refine ⟨?_, hta⟩
  rw [htb, hex, hta]
  omega

/-- Claim C9 witness: the stats partition on a concrete two-grant run with one
merge. -/
theorem C9_stats_partition_witness :
    ([c9a, c9b].map Grant.id).Nodup
    ∧ (deduplicateGrants [c9a, c9b]).stats.totalBefore
        = (deduplicateGrants [c9a, c9b]).stats.excluded
          + (deduplicateGrants [c9a, c9b]).stats.fuzzyMerged
          + (deduplicateGrants [c9a, c9b]).stats.totalAfter :=
  ⟨by decide, (C9_stats_partition [c9a, c9b] (by decide)).1⟩

/-- Claim C10: two distinct, non-empty recipient names made only of stopwords
normalize to the same empty-string key, land in one group, and are fuzzy-merged
by Layer 2 (different grantmakers, amount ratio 1.05, dates 9 days apart). -/
theorem C10_stopword_collision :
    ¬ (("The Foundation Inc" : String) = "University Institute Fund")
    ∧ ¬ (("The Foundation Inc" : String) = "")
    ∧ ¬ (("University Institute Fund" : String) = "")
    ∧ normalizeRecipient "The Foundation Inc" = ""
    ∧ normalizeRecipient "University Institute Fund" = ""
    ∧ c10a.recipient = "The Foundation Inc"
    ∧ c10b.recipient = "University Institute Fund"
    ∧ ¬ c10a.grantmaker = c10b.grantmaker
    ∧ (deduplicateGrants [c10a, c10b]).stats.fuzzyMerged = 1
    ∧ (deduplicateGrants [c10a, c10b]).grants.length = 1 := by
  exact ⟨by decide, by decide, by decide, by decide, by decide, by decide, by decide,
    by decide, by with_unfolding_all decide, by with_unfolding_all decide⟩

end EAGrants
